import Mathlib

/-!
Verification of the context-aware edit engine of AetherCode
(`frontend/src/components/ChatEditor.tsx`): the diff engine, the context
serializer, the code extractor, the patch applier and the permission gate.

Strings are modelled by Lean `String` (a packed `List Char`); JavaScript
string primitives (`split`, `join`, `includes`, `replace`, `trim`,
`substring`) are translated explicitly below over `List Char`, including
the `$`-substitution that `String.prototype.replace` performs on its
replacement argument.
-/

/-- The backtick character (code 96) used by fenced code delimiters. -/
def backtickChar : Char := Char.ofNat 96

/-- The apostrophe character (code 39), special after `$` in JavaScript
replacement strings. -/
def apostropheChar : Char := Char.ofNat 39

/-- Model of JavaScript `String.prototype.trim`: strips leading and trailing
whitespace (space, tab, carriage return, line feed) from both ends. -/
def jsTrim (s : String) : String :=
  String.mk (((s.data.dropWhile Char.isWhitespace).reverse.dropWhile Char.isWhitespace).reverse)

/-- Leftmost-occurrence search, the primitive behind JavaScript `includes`
and `replace`: `firstOcc pat content = some (before, after)` when `pat`
occurs in `content`, splitting `content` as `before ++ pat ++ after` at the
first occurrence; `none` when `pat` does not occur. -/
def firstOcc (pat : List Char) : List Char → Option (List Char × List Char)
  | [] => if pat.isPrefixOf ([] : List Char) then some ([], []) else none
  | c :: rest =>
    if pat.isPrefixOf (c :: rest) then some ([], (c :: rest).drop pat.length)
    else (firstOcc pat rest).map (fun ba => (c :: ba.1, ba.2))

/-- Model of JavaScript `String.prototype.includes` (substring test). -/
def strIncludes (s pat : String) : Bool := (firstOcc pat.data s.data).isSome

/-- ECMAScript `GetSubstitution` for a string (non-regexp) search value:
in the replacement text, `$$` yields `$`, `$&` yields the matched text,
`$` followed by a backtick yields the part of the string before the match,
`$` followed by an apostrophe yields the part after the match; any other
`$` is literal (a string search has no capture groups). -/
def getSubstitution (matched before after : List Char) : List Char → List Char
  | [] => []
  | c :: rest =>
    if c = '$' then
      match rest with
      | [] => ['$']
      | d :: rest2 =>
        if d = '$' then '$' :: getSubstitution matched before after rest2
        else if d = '&' then matched ++ getSubstitution matched before after rest2
        else if d = backtickChar then before ++ getSubstitution matched before after rest2
        else if d = apostropheChar then after ++ getSubstitution matched before after rest2
        else '$' :: d :: getSubstitution matched before after rest2
    else c :: getSubstitution matched before after rest

/-- Model of JavaScript `String.prototype.replace(search, repl)` with a
string search value: replaces the first occurrence of `pat`, applying
`GetSubstitution` to the replacement text; returns `s` unchanged when
`pat` does not occur. -/
def jsReplaceFirst (s pat repl : String) : String :=
  match firstOcc pat.data s.data with
  | none => s
  | some ba => String.mk (ba.1 ++ getSubstitution pat.data ba.1 ba.2 repl.data ++ ba.2)

/-- Model of JavaScript `text.split('\n')`. -/
def splitLines (s : String) : List String := (s.data.splitOn '\n').map String.mk

/-- Model of JavaScript `lines.join('\n')`. -/
def joinLines (ls : List String) : String :=
  String.mk (List.intercalate ['\n'] (ls.map String.data))

/-- The three diff line kinds of the `DiffLine` interface. -/
inductive DiffType where
  | added
  | removed
  | unchanged
deriving DecidableEq, Repr

/-- One line of a computed diff (`DiffLine` in the source). -/
structure DiffLine where
  type : DiffType
  content : String
deriving DecidableEq, Repr

/-- The loop of `computeDiff` over the already-split line lists, phrased on
the suffixes `oldLines.slice(i)` / `newLines.slice(j)`; each equation is the
corresponding branch of the source's `while` loop (unchanged when both heads
agree; added when the new head does not occur in the remaining old lines;
removed otherwise). -/
def computeDiffAux : List String → List String → List DiffLine
  | [], [] => []
  | [], n :: newRest => ⟨.added, n⟩ :: computeDiffAux [] newRest
  | o :: oldRest, [] => ⟨.removed, o⟩ :: computeDiffAux oldRest []
  | o :: oldRest, n :: newRest =>
    if o = n then ⟨.unchanged, o⟩ :: computeDiffAux oldRest newRest
    else if n ∉ o :: oldRest then ⟨.added, n⟩ :: computeDiffAux (o :: oldRest) newRest
    else ⟨.removed, o⟩ :: computeDiffAux oldRest (n :: newRest)
termination_by old new => old.length + new.length
decreasing_by all_goals simp <;> omega

/-- `computeDiff` from the source: split both texts on newlines and run the
greedy two-cursor loop. -/
def computeDiff (oldText newText : String) : List DiffLine :=
  computeDiffAux (splitLines oldText) (splitLines newText)

/-- Reference greedy diff, following the specification's wording (§4.4): walk
cursors `i` and `j` from 0; emit unchanged and advance both when both cursors
are in range and `old[i] == new[j]`; else emit added and advance `j` when
`new[j]` does not occur anywhere in the remaining old suffix `old[i..]`; else
emit removed and advance `i`; until both cursors are exhausted. -/
def refDiffAux (old new : List String) : Nat → Nat → List DiffLine := fun i j =>
  if h1 : i < old.length ∧ j < new.length ∧ old.getD i "" = new.getD j "" then
    ⟨.unchanged, old.getD i ""⟩ :: refDiffAux old new (i + 1) (j + 1)
  else if h2 : j < new.length ∧ new.getD j "" ∉ old.drop i then
    ⟨.added, new.getD j ""⟩ :: refDiffAux old new i (j + 1)
  else if h3 : i < old.length then
    ⟨.removed, old.getD i ""⟩ :: refDiffAux old new (i + 1) j
  else []
termination_by i j => (old.length - i) + (new.length - j)
decreasing_by all_goals omega

/-- The reference algorithm on whole texts, splitting on newlines as §4.4. -/
def refDiff (oldText newText : String) : List DiffLine :=
  refDiffAux (splitLines oldText) (splitLines newText) 0 0

/-- Filter predicate selecting diff lines typed added or unchanged. -/
def keepNew (d : DiffLine) : Bool := d.type == .added || d.type == .unchanged

/-- Filter predicate selecting diff lines typed removed or unchanged. -/
def keepOld (d : DiffLine) : Bool := d.type == .removed || d.type == .unchanged

theorem joinLines_splitLines (s : String) : joinLines (splitLines s) = s := by
  unfold joinLines splitLines
  rw [List.map_map]
  have h : (String.data ∘ String.mk) = id := by funext l; rfl
  rw [h, List.map_id, List.intercalate_splitOn]

theorem diff_restore_aux : ∀ (k : Nat) (old new : List String), old.length + new.length ≤ k →
    ((computeDiffAux old new).filter keepNew).map DiffLine.content = new ∧
    ((computeDiffAux old new).filter keepOld).map DiffLine.content = old := by
  intro k
  induction k with
  | zero =>
    intro old new h
    match old, new with
    | [], [] => simp [computeDiffAux]
    | _ :: _, _ => simp at h
    | [], _ :: _ => simp at h
  | succ k ih =>
    intro old new h
    match old, new with
    | [], [] => simp [computeDiffAux]
    | [], n :: newRest =>
      have := ih [] newRest (by simp at h ⊢; omega)
      simp [computeDiffAux, keepNew, keepOld, List.filter, this.1, this.2]
    | o :: oldRest, [] =>
      have := ih oldRest [] (by simp at h ⊢; omega)
      simp [computeDiffAux, keepNew, keepOld, List.filter, this.1, this.2]
    | o :: oldRest, n :: newRest =>
      by_cases heq : o = n
      · subst heq
        have := ih oldRest newRest (by simp at h ⊢; omega)
        simp [computeDiffAux, keepNew, keepOld, List.filter, this.1, this.2]
      · by_cases hmem : n ∈ o :: oldRest
        · have := ih oldRest (n :: newRest) (by simp at h ⊢; omega)
          simp [computeDiffAux, heq, hmem, keepNew, keepOld, List.filter, this.1, this.2]
        · have := ih (o :: oldRest) newRest (by simp at h ⊢; omega)
          simp [computeDiffAux, heq, hmem, keepNew, keepOld, List.filter, this.1, this.2]

/-- Claim C1: for every pair of texts `a` and `b`, filtering `computeDiff a b`
to the lines typed added or unchanged and joining their contents in order with
newlines reproduces `b` exactly, and filtering to removed or unchanged
reproduces `a` exactly. -/
theorem computeDiff_reconstruction (a b : String) :
    joinLines (((computeDiff a b).filter keepNew).map DiffLine.content) = b ∧
    joinLines (((computeDiff a b).filter keepOld).map DiffLine.content) = a := by
  have h := diff_restore_aux ((splitLines a).length + (splitLines b).length)
    (splitLines a) (splitLines b) (le_refl _)
  unfold computeDiff
  rw [h.1, h.2]
  exact ⟨joinLines_splitLines b, joinLines_splitLines a⟩

theorem drop_getD_cons {l : List String} {i : Nat} (h : i < l.length) :
    l.drop i = l.getD i "" :: l.drop (i + 1) := by
  rw [List.getD_eq_getElem l "" h]
  exact List.drop_eq_getElem_cons h

theorem refDiff_eq_aux : ∀ (k i j : Nat) (old new : List String),
    (old.length - i) + (new.length - j) ≤ k →
    refDiffAux old new i j = computeDiffAux (old.drop i) (new.drop j) := by
  intro k
  induction k with
  | zero =>
    intro i j old new h
    have hi : old.length ≤ i := by omega
    have hj : new.length ≤ j := by omega
    rw [List.drop_eq_nil_of_le hi, List.drop_eq_nil_of_le hj]
    rw [refDiffAux]
    rw [dif_neg (fun hc => absurd hc.1 (by omega))]
    rw [dif_neg (fun hc => absurd hc.1 (by omega))]
    rw [dif_neg (by omega)]
    simp [computeDiffAux]
  | succ k ih =>
    intro i j old new h
    by_cases hi : i < old.length
    · by_cases hj : j < new.length
      · by_cases heq : old.getD i "" = new.getD j ""
        · rw [refDiffAux, dif_pos ⟨hi, hj, heq⟩]
          rw [drop_getD_cons hi, drop_getD_cons hj]
          simp only [computeDiffAux]
          rw [if_pos heq]
          rw [ih (i + 1) (j + 1) old new (by omega)]
        · by_cases hmem : new.getD j "" ∈ old.drop i
          · rw [refDiffAux]
            rw [dif_neg (fun hc => heq hc.2.2)]
            rw [dif_neg (fun hc => hc.2 hmem)]
            rw [dif_pos hi]
            rw [drop_getD_cons hi, drop_getD_cons hj]
            simp only [computeDiffAux]
            rw [if_neg heq]
            rw [drop_getD_cons hi] at hmem
            rw [if_neg (not_not_intro hmem)]
            rw [ih (i + 1) j old new (by omega), drop_getD_cons hj]
          · rw [refDiffAux]
            rw [dif_neg (fun hc => heq hc.2.2)]
            rw [dif_pos ⟨hj, hmem⟩]
            rw [drop_getD_cons hi, drop_getD_cons hj]
            simp only [computeDiffAux]
            rw [if_neg heq]
            rw [drop_getD_cons hi] at hmem
            rw [if_pos hmem]
            rw [ih i (j + 1) old new (by omega), drop_getD_cons hi]
      · rw [refDiffAux]
        rw [dif_neg (fun hc => hj hc.2.1)]
        rw [dif_neg (fun hc => hj hc.1)]
        rw [dif_pos hi]
        rw [drop_getD_cons hi, List.drop_eq_nil_of_le (by omega : new.length ≤ j)]
        simp only [computeDiffAux]
        rw [ih (i + 1) j old new (by omega)]
        rw [List.drop_eq_nil_of_le (by omega : new.length ≤ j)]
    · by_cases hj : j < new.length
      · have hdi : old.drop i = [] := List.drop_eq_nil_of_le (by omega)
        rw [refDiffAux]
        rw [dif_neg (fun hc => hi hc.1)]
        rw [dif_pos ⟨hj, by simp [hdi]⟩]
        rw [hdi, drop_getD_cons hj]
        simp only [computeDiffAux]
        rw [ih i (j + 1) old new (by omega), hdi]
      · have hdi : old.drop i = [] := List.drop_eq_nil_of_le (by omega)
        have hdj : new.drop j = [] := List.drop_eq_nil_of_le (by omega)
        rw [refDiffAux]
        rw [dif_neg (fun hc => hi hc.1)]
        rw [dif_neg (fun hc => hj hc.1)]
        rw [dif_neg (by omega)]
        rw [hdi, hdj]
        simp [computeDiffAux]

/-- Claim C3: `computeDiff` coincides with the reference greedy algorithm of
the specification (`refDiff`, transcribed from the spec's cursor-based
wording) on every pair of input texts. -/
theorem computeDiff_eq_refDiff (oldText newText : String) :
    computeDiff oldText newText = refDiff oldText newText := by
  unfold computeDiff refDiff
  rw [refDiff_eq_aux ((splitLines oldText).length + (splitLines newText).length)
    0 0 (splitLines oldText) (splitLines newText) (by omega)]
  simp

/-- Guard of the first branch of `computeDiff`'s loop on the remaining
suffixes: both cursors in range and the current lines equal. -/
def diffGuard1 : List String → List String → Prop
  | o :: _, n :: _ => o = n
  | _, _ => False

/-- Guard of the second branch: the new cursor in range and its line absent
from the remaining old suffix (`i >= oldLines.length ||
!oldLines.slice(i).includes(newLines[j])`). -/
def diffGuard2 : List String → List String → Prop
  | _, [] => False
  | old, n :: _ => old = [] ∨ n ∉ old

/-- Guard of the third branch: the old cursor still in range. -/
def diffGuard3 (old : List String) (_new : List String) : Prop := old ≠ []

/-- Cursor state after one iteration of `computeDiff`'s loop, on suffixes. -/
def diffStep : List String × List String → List String × List String
  | ([], []) => ([], [])
  | ([], _ :: newRest) => ([], newRest)
  | (_ :: oldRest, []) => (oldRest, [])
  | (o :: oldRest, n :: newRest) =>
    if o = n then (oldRest, newRest)
    else if n ∉ o :: oldRest then (o :: oldRest, newRest)
    else (oldRest, n :: newRest)

/-- The diff line emitted by one iteration of `computeDiff`'s loop. -/
def diffEmit : List String × List String → DiffLine
  | ([], []) => ⟨.unchanged, ""⟩
  | ([], n :: _) => ⟨.added, n⟩
  | (o :: _, []) => ⟨.removed, o⟩
  | (o :: oldRest, n :: _) =>
    if o = n then ⟨.unchanged, o⟩
    else if n ∉ o :: oldRest then ⟨.added, n⟩
    else ⟨.removed, o⟩

/-- Claim C10: `computeDiff` terminates on every input: whenever the loop
condition holds (some cursor is still in range), exactly one of the three
branches fires (the disjuncts below are pairwise exclusive by the `else-if`
negations they carry), the iteration emits its line and strictly decreases
the measure (remaining old lines) + (remaining new lines), so the recursive
form `computeDiffAux` is total. -/
theorem computeDiff_termination (old new : List String) (h : old ≠ [] ∨ new ≠ []) :
    (diffGuard1 old new ∨ (¬ diffGuard1 old new ∧ diffGuard2 old new) ∨
      (¬ diffGuard1 old new ∧ ¬ diffGuard2 old new ∧ diffGuard3 old new)) ∧
    (diffStep (old, new)).1.length + (diffStep (old, new)).2.length
      < old.length + new.length ∧
    computeDiffAux old new
      = diffEmit (old, new) :: computeDiffAux (diffStep (old, new)).1 (diffStep (old, new)).2 := by
  match old, new with
  | [], [] => simp at h
  | [], n :: newRest =>
    refine ⟨Or.inr (Or.inl ⟨by simp [diffGuard1], Or.inl rfl⟩), ?_, ?_⟩
    · simp [diffStep]
    · simp [diffStep, diffEmit, computeDiffAux]
  | o :: oldRest, [] =>
    refine ⟨Or.inr (Or.inr ⟨by simp [diffGuard1], by simp [diffGuard2], by simp [diffGuard3]⟩), ?_, ?_⟩
    · simp [diffStep]
    · simp [diffStep, diffEmit, computeDiffAux]
  | o :: oldRest, n :: newRest =>
    by_cases heq : o = n
    · refine ⟨Or.inl heq, ?_, ?_⟩
      · simp [diffStep, heq]
        omega
      · simp [diffStep, diffEmit, computeDiffAux, heq]
    · by_cases hmem : n ∈ o :: oldRest
      · refine ⟨Or.inr (Or.inr ⟨heq, ?_, by simp [diffGuard3]⟩), ?_, ?_⟩
        · simp only [diffGuard2]
          push_neg
          exact ⟨by simp, hmem⟩
        · simp [diffStep, heq, hmem]
        · simp [diffStep, diffEmit, computeDiffAux, heq, hmem]
      · refine ⟨Or.inr (Or.inl ⟨heq, Or.inr hmem⟩), ?_, ?_⟩
        · simp [diffStep, heq, hmem]
        · simp [diffStep, diffEmit, computeDiffAux, heq, hmem]

/-- Concrete instance of `computeDiff_termination` at `old = ["x"]`,
`new = []`, with its hypothesis discharged by evaluation. -/
theorem computeDiff_termination_witness :
    ((["x"] : List String) ≠ [] ∨ ([] : List String) ≠ []) ∧
    ((diffGuard1 ["x"] [] ∨ (¬ diffGuard1 ["x"] [] ∧ diffGuard2 ["x"] []) ∨
      (¬ diffGuard1 ["x"] [] ∧ ¬ diffGuard2 ["x"] [] ∧ diffGuard3 ["x"] [])) ∧
    (diffStep (["x"], [])).1.length + (diffStep (["x"], [])).2.length
      < (["x"] : List String).length + ([] : List String).length ∧
    computeDiffAux ["x"] []
      = diffEmit (["x"], []) :: computeDiffAux (diffStep (["x"], [])).1 (diffStep (["x"], [])).2) :=
  ⟨Or.inl (by decide), computeDiff_termination ["x"] [] (Or.inl (by decide))⟩

/-- JavaScript regex `\w` (ASCII word character). -/
def wordChar (c : Char) : Bool := c.isAlphanum || c = '_'

/-- The triple-backtick fence delimiter. -/
def fenceChars : List Char := [backtickChar, backtickChar, backtickChar]

/-- One attempt of the extraction regex `((...))` at the current position:
a fence, a greedy run of word characters (the language tag), a newline, then
the lazy body up to the first closing fence. Returns the captured body and
the text after the match, or `none` when the regex does not match here. -/
def matchFenceAt (s : List Char) : Option (List Char × List Char) :=
  if fenceChars.isPrefixOf s then
    match (s.drop 3).dropWhile wordChar with
    | '\n' :: body0 =>
      match firstOcc fenceChars body0 with
      | some ba => some (ba.1, ba.2)
      | none => none
    | _ => none
  else none

/-- The source's `exec` loop keeping only the last captured body: scan the
text left to right; on a match record its body and resume after the match,
otherwise advance one character. Fuel is the number of characters and is
consumed once per step, so it never runs out before the text does. -/
def scanFencedLast : Nat → List Char → Option (List Char) → Option (List Char)
  | 0, _, acc => acc
  | _ + 1, [], acc => acc
  | fuel + 1, c :: rest, acc =>
    match matchFenceAt (c :: rest) with
    | some br => scanFencedLast fuel br.2 (some br.1)
    | none => scanFencedLast fuel rest acc

/-- The same scan collecting every captured body in document order. -/
def scanFencedAll : Nat → List Char → List (List Char)
  | 0, _ => []
  | _ + 1, [] => []
  | fuel + 1, c :: rest =>
    match matchFenceAt (c :: rest) with
    | some br => br.1 :: scanFencedAll fuel br.2
    | none => scanFencedAll fuel rest

/-- `extractCodeFromMessage` from the source: the last captured body, trimmed;
`null` when there is no match or the last body is the empty string (an empty
string is falsy in `lastCode ? lastCode.trim() : null`). -/
def extractCodeFromMessage (content : String) : Option String :=
  match scanFencedLast content.data.length content.data none with
  | none => none
  | some body => if body = [] then none else some (jsTrim (String.mk body))

/-- The bodies of all fenced code blocks of a text, in document order. -/
def fencedBodies (content : String) : List String :=
  (scanFencedAll content.data.length content.data).map (fun l => String.mk l)

theorem scanLast_eq_all : ∀ (fuel : Nat) (s : List Char) (acc : Option (List Char)),
    scanFencedLast fuel s acc = ((scanFencedAll fuel s).getLast?).or acc := by
  intro fuel
  induction fuel with
  | zero => intro s acc; simp [scanFencedLast, scanFencedAll]
  | succ fuel ih =>
    intro s acc
    match s with
    | [] => simp [scanFencedLast, scanFencedAll]
    | c :: rest =>
      rw [scanFencedLast, scanFencedAll]
      cases hm : matchFenceAt (c :: rest) with
      | some br =>
        dsimp only
        rw [ih br.2 (some br.1)]
        cases h : (scanFencedAll fuel br.2).getLast? with
        | none =>
          have hnil : scanFencedAll fuel br.2 = [] := by
            cases hh : scanFencedAll fuel br.2 with
            | nil => rfl
            | cons x xs => rw [hh] at h; simp [List.getLast?_eq_getLast] at h
          simp [hnil]
        | some b =>
          match hh : scanFencedAll fuel br.2 with
          | [] => rw [hh] at h; simp at h
          | x :: xs =>
            rw [hh] at h
            rw [List.getLast?_cons_cons, h]
            simp
      | none =>
        dsimp only
        exact ih rest acc

theorem getLast_map_mk : ∀ (l : List (List Char)),
    (l.map (fun x => String.mk x)).getLast? = (l.getLast?).map (fun x => String.mk x) := by
  intro l
  induction l with
  | nil => rfl
  | cons x xs ih =>
    cases xs with
    | nil => rfl
    | cons y ys => simpa [List.getLast?_cons_cons] using ih

/-- Claim C5 (amended): the Code Extractor returns the body of the last
fenced code block, delimiters and language tag stripped and whitespace
trimmed — except that when that body is exactly the empty string the
extractor returns no candidate (the empty string is falsy in the source's
`lastCode ? lastCode.trim() : null`); with no fenced block it also returns
no candidate. -/
theorem extractCode_last_block (content : String) :
    extractCodeFromMessage content =
      match (fencedBodies content).getLast? with
      | none => none
      | some b => if b = "" then none else some (jsTrim b) := by
  unfold extractCodeFromMessage fencedBodies
  rw [scanLast_eq_all, getLast_map_mk]
  cases h : (scanFencedAll content.data.length content.data).getLast? with
  | none => simp
  | some body =>
    simp only [Option.map_some', Option.or]
    by_cases hb : body = []
    · subst hb
      simp
    · rw [if_neg hb, if_neg (fun hc => hb (congrArg String.data hc))]

/-- Counterexample to claim C5 as stated: the text consisting of one fenced
code block with empty body contains a fenced block, yet the extractor
returns no candidate instead of the (trimmed, empty) body. -/
theorem extractCode_counterexample :
    fencedBodies "```\n```" = [""] ∧ extractCodeFromMessage "```\n```" = none := by
  decide

/-- The `<<<<<<< SEARCH` marker. -/
def searchMarker : String := "<<<<<<< SEARCH"

/-- The `=======` separator marker. -/
def sepMarker : String := "======="

/-- The `>>>>>>> REPLACE` marker. -/
def replaceMarker : String := ">>>>>>> REPLACE"

/-- The body of one iteration of `applySearchReplace` once a block's search
and replace texts have been extracted: empty (whitespace-only) search text
prepends the replace text and a newline; otherwise the first occurrence of
the search text, if any, is replaced via JavaScript `replace`; a search text
that does not occur leaves the content unchanged. -/
def applyBlock (result searchText replaceText : String) : String :=
  if jsTrim searchText = "" then replaceText ++ "\n" ++ result
  else if strIncludes result searchText then jsReplaceFirst result searchText replaceText
  else result

/-- The scanning loop of `applySearchReplace` over the edit block's lines:
on a line containing the SEARCH marker, collect lines until one contains the
separator, skip it, collect lines until one contains the REPLACE marker,
apply the block, and continue after it. Fuel is the number of lines and is
consumed once per examined line, so it never runs out before the lines do. -/
def applySRAux : Nat → List String → String → String
  | 0, _, result => result
  | _ + 1, [], result => result
  | fuel + 1, l :: rest, result =>
    if strIncludes l searchMarker then
      let searchLines := rest.takeWhile (fun x => !(strIncludes x sepMarker))
      let rest1 := (rest.dropWhile (fun x => !(strIncludes x sepMarker))).drop 1
      let replaceLines := rest1.takeWhile (fun x => !(strIncludes x replaceMarker))
      let rest2 := (rest1.dropWhile (fun x => !(strIncludes x replaceMarker))).drop 1
      applySRAux fuel rest2
        (applyBlock result (joinLines searchLines) (joinLines replaceLines))
    else applySRAux fuel rest result

/-- `applySearchReplace` from the source. -/
def applySearchReplace (currentCode editBlock : String) : String :=
  applySRAux (splitLines editBlock).length (splitLines editBlock) currentCode

theorem firstOcc_split : ∀ (content pat before after : List Char),
    firstOcc pat content = some (before, after) → content = before ++ pat ++ after := by
  intro content
  induction content with
  | nil =>
    intro pat before after h
    rw [firstOcc] at h
    by_cases hp : pat.isPrefixOf ([] : List Char)
    · rw [if_pos hp] at h
      have : pat = [] := List.prefix_nil.mp (List.isPrefixOf_iff_prefix.mp hp)
      cases h
      simp [this]
    · rw [if_neg hp] at h
      cases h
  | cons c rest ih =>
    intro pat before after h
    rw [firstOcc] at h
    by_cases hp : pat.isPrefixOf (c :: rest)
    · rw [if_pos hp] at h
      obtain ⟨t, ht⟩ := List.isPrefixOf_iff_prefix.mp hp
      cases h
      rw [← ht, List.drop_left]
      simp
    · rw [if_neg hp] at h
      cases hf : firstOcc pat rest with
      | none => rw [hf] at h; cases h
      | some ba =>
        rw [hf] at h
        cases h
        have := ih pat ba.1 ba.2 (by rw [hf])
        simp [this]

theorem firstOcc_min : ∀ (content pat before after b2 a2 : List Char),
    firstOcc pat content = some (before, after) →
    content = b2 ++ pat ++ a2 → before.length ≤ b2.length := by
  intro content
  induction content with
  | nil =>
    intro pat before after b2 a2 h heq
    rw [firstOcc] at h
    by_cases hp : pat.isPrefixOf ([] : List Char)
    · rw [if_pos hp] at h
      cases h
      simp
    · rw [if_neg hp] at h
      cases h
  | cons c rest ih =>
    intro pat before after b2 a2 h heq
    rw [firstOcc] at h
    by_cases hp : pat.isPrefixOf (c :: rest)
    · rw [if_pos hp] at h
      cases h
      simp
    · rw [if_neg hp] at h
      match b2, heq with
      | [], heq =>
        exfalso
        apply hp
        apply List.isPrefixOf_iff_prefix.mpr
        exact ⟨a2, by simpa using heq.symm⟩
      | b :: b2rest, heq =>
        cases hf : firstOcc pat rest with
        | none => rw [hf] at h; cases h
        | some ba =>
          rw [hf] at h
          cases h
          have hrest : rest = b2rest ++ pat ++ a2 := by
            have := congrArg List.tail heq
            simpa using this
          have := ih pat ba.1 ba.2 b2rest a2 (by rw [hf]) hrest
          simpa using Nat.succ_le_succ this

/-- Claim C4 (amended): for a block whose search text is not whitespace-only,
if the search text does not occur in the running content the block is skipped
with no error (content unchanged); if it occurs, exactly the first occurrence
is replaced — the prefix before it and the suffix after it are kept — with
the replace text as transformed by JavaScript `$`-substitution (`$$`, `$&`,
backtick and apostrophe escapes; a replace text without `$` is inserted
verbatim). -/
theorem applyBlock_first_occurrence (content searchText replaceText : String)
    (h : jsTrim searchText ≠ "") :
    (strIncludes content searchText = false →
      applyBlock content searchText replaceText = content) ∧
    (strIncludes content searchText = true → ∃ before after : List Char,
      content.data = before ++ searchText.data ++ after ∧
      (∀ b2 a2 : List Char,
        content.data = b2 ++ searchText.data ++ a2 → before.length ≤ b2.length) ∧
      (applyBlock content searchText replaceText).data
        = before ++ getSubstitution searchText.data before after replaceText.data ++ after) := by
  constructor
  · intro hninc
    unfold applyBlock
    rw [if_neg h, if_neg (by simp [hninc])]
  · intro hinc
    unfold strIncludes at hinc
    cases hf : firstOcc searchText.data content.data with
    | none => rw [hf] at hinc; simp at hinc
    | some ba =>
      refine ⟨ba.1, ba.2, ?_, ?_, ?_⟩
      · exact firstOcc_split content.data searchText.data ba.1 ba.2 (by rw [hf])
      · intro b2 a2 heq
        exact firstOcc_min content.data searchText.data ba.1 ba.2 b2 a2 (by rw [hf]) heq
      · unfold applyBlock
        rw [if_neg h, if_pos (by unfold strIncludes; rw [hf]; rfl)]
        unfold jsReplaceFirst
        rw [hf]

/-- Concrete instance of `applyBlock_first_occurrence` at content `"abcb"`,
search `"b"`, replace `"X"`, with its hypothesis discharged by evaluation. -/
theorem applyBlock_first_occurrence_witness :
    jsTrim "b" ≠ "" ∧
    ((strIncludes "abcb" "b" = false → applyBlock "abcb" "b" "X" = "abcb") ∧
    (strIncludes "abcb" "b" = true → ∃ before after : List Char,
      ("abcb" : String).data = before ++ ("b" : String).data ++ after ∧
      (∀ b2 a2 : List Char,
        ("abcb" : String).data = b2 ++ ("b" : String).data ++ a2 →
          before.length ≤ b2.length) ∧
      (applyBlock "abcb" "b" "X").data
        = before ++ getSubstitution ("b" : String).data before after ("X" : String).data
            ++ after)) :=
  ⟨by decide, applyBlock_first_occurrence "abcb" "b" "X" (by decide)⟩

/-- Counterexample to claim C4 as stated: a replace text containing `$$` is
not inserted verbatim — JavaScript `replace` collapses it to a single `$`, so
replacing `"b"` by `"$$"` in `"abc"` yields `"a$c"`, not `"a$$c"`. -/
theorem searchReplace_counterexample :
    applySearchReplace "abc" "<<<<<<< SEARCH\nb\n=======\n$$\n>>>>>>> REPLACE" = "a$c" ∧
    ("a$c" : String) ≠ "a$$c" := by
  decide

/-- Claim C7: a search/replace block whose search text is empty or
whitespace-only prepends the replace text followed by a newline to the
running content, whatever the current content. -/
theorem applyBlock_empty_search_prepends (content searchText replaceText : String)
    (h : jsTrim searchText = "") :
    applyBlock content searchText replaceText = replaceText ++ "\n" ++ content := by
  unfold applyBlock
  rw [if_pos h]

/-- Concrete instance of `applyBlock_empty_search_prepends` at empty current
content and a whitespace-only search text. -/
theorem applyBlock_empty_search_prepends_witness :
    jsTrim " " = "" ∧ applyBlock "" " " "y" = "y" ++ "\n" ++ "" :=
  ⟨by decide, applyBlock_empty_search_prepends "" " " "y" (by decide)⟩


/-- The `kind` field of a `FileNode`. -/
inductive NodeKind where
  | file
  | directory
deriving DecidableEq, Repr

/-- The `FileNode` interface of the source; a file carries `[]` for the
absent `children` array (the source only ever tests `node.children` for
truthiness before recursing, so a missing array and an empty one behave
identically in every function modelled here). -/
inductive FileNode where
  | mk (name : String) (path : String) (kind : NodeKind) (content : Option String)
      (children : List FileNode)

def FileNode.path : FileNode → String
  | .mk _ p _ _ _ => p

def FileNode.children : FileNode → List FileNode
  | .mk _ _ _ _ cs => cs

/-- The `updateNode` helper of `applyEdit`: walk the tree in depth-first
preorder; on the first node whose `path` equals `p`, set its content to the
new code and stop, reporting `true`; otherwise recurse into children, then
siblings. A node is modified only when a match was found below it. -/
def updateNodes (p newCode : String) : List FileNode → (List FileNode × Bool)
  | [] => ([], false)
  | FileNode.mk nm pth k ct cs :: rest =>
    if pth = p then (FileNode.mk nm pth k (some newCode) cs :: rest, true)
    else
      match updateNodes p newCode cs with
      | (cs2, true) => (FileNode.mk nm pth k ct cs2 :: rest, true)
      | (_, false) =>
        (FileNode.mk nm pth k ct cs :: (updateNodes p newCode rest).1,
         (updateNodes p newCode rest).2)
termination_by nodes => sizeOf nodes

/-- Depth-first preorder lookup of the first node with the given path, the
observation order matching `updateNodes`. -/
def findNode (p : String) : List FileNode → Option FileNode
  | [] => none
  | FileNode.mk nm pth k ct cs :: rest =>
    if pth = p then some (FileNode.mk nm pth k ct cs)
    else
      match findNode p cs with
      | some m => some m
      | none => findNode p rest
termination_by nodes => sizeOf nodes

/-- Frame relation: the two trees have the same shape, and every node keeps
its name, path and kind; a node whose path differs from `p` also keeps its
content (children are related recursively, so a node "changes" only through
the content of the one matching descendant). -/
def framePreserved (p : String) : List FileNode → List FileNode → Prop
  | [], [] => True
  | FileNode.mk nm pth k ct cs :: rest, FileNode.mk nm2 pth2 k2 ct2 cs2 :: rest2 =>
    nm2 = nm ∧ pth2 = pth ∧ k2 = k ∧ (pth ≠ p → ct2 = ct) ∧
    framePreserved p cs cs2 ∧ framePreserved p rest rest2
  | _, _ => False
termination_by l _ => sizeOf l

theorem sizeOf_children_lt (n : FileNode) : sizeOf n.children < sizeOf n := by
  cases n with
  | mk nm p k ct cs => simp [FileNode.children]

/-- Induction over forests of `FileNode`s: to prove `P` of every list it
suffices to prove it for `[]` and for `n :: rest` given it for `n`'s
children and for `rest`. -/
theorem nodes_induction (P : List FileNode → Prop) (h0 : P [])
    (h1 : ∀ (n : FileNode) (rest : List FileNode), P n.children → P rest → P (n :: rest)) :
    ∀ nodes, P nodes := by
  have key : ∀ (k : Nat) (nodes : List FileNode), sizeOf nodes ≤ k → P nodes := by
    intro k
    induction k with
    | zero =>
      intro nodes h
      match nodes with
      | [] => exact h0
      | n :: rest =>
        exfalso
        have : (0 : Nat) < sizeOf (n :: rest) := by simp
        omega
    | succ k ih =>
      intro nodes h
      match nodes with
      | [] => exact h0
      | n :: rest =>
        have hsz : sizeOf (n :: rest) = 1 + sizeOf n + sizeOf rest := by simp
        have hcl := sizeOf_children_lt n
        exact h1 n rest (ih n.children (by omega)) (ih rest (by omega))
  intro nodes
  exact key (sizeOf nodes) nodes (le_refl _)

def FileNode.name : FileNode → String
  | .mk n _ _ _ _ => n

def FileNode.kind : FileNode → NodeKind
  | .mk _ _ k _ _ => k

def FileNode.content : FileNode → Option String
  | .mk _ _ _ ct _ => ct

/-- `node.content = newCode`: the same node with only its content replaced. -/
def setFileContent (n : FileNode) (newCode : String) : FileNode :=
  FileNode.mk n.name n.path n.kind (some newCode) n.children

theorem framePreserved_refl (p : String) : ∀ nodes, framePreserved p nodes nodes := by
  apply nodes_induction (fun nodes => framePreserved p nodes nodes)
  · simp [framePreserved]
  · intro n rest ihc ihr
    cases n with
    | mk nm pth k ct cs =>
      rw [framePreserved]
      exact ⟨rfl, rfl, rfl, fun _ => rfl, ihc, ihr⟩

theorem frame_updateNodes (p c : String) :
    ∀ nodes, framePreserved p nodes (updateNodes p c nodes).1 := by
  apply nodes_induction
  · simp [updateNodes, framePreserved]
  · intro n rest ihc ihr
    cases n with
    | mk nm pth k ct cs =>
      dsimp only [FileNode.children] at ihc
      rw [updateNodes]
      by_cases hp : pth = p
      · rw [if_pos hp]
        rw [framePreserved]
        exact ⟨rfl, rfl, rfl, fun hne => absurd hp hne, framePreserved_refl p cs,
          framePreserved_refl p rest⟩
      · rw [if_neg hp]
        cases hrc : updateNodes p c cs with
        | mk cs2 b =>
          cases b with
          | true =>
            dsimp only
            rw [framePreserved]
            refine ⟨rfl, rfl, rfl, fun _ => rfl, ?_, framePreserved_refl p rest⟩
            have := ihc
            rw [hrc] at this
            exact this
          | false =>
            dsimp only
            rw [framePreserved]
            exact ⟨rfl, rfl, rfl, fun _ => rfl, framePreserved_refl p cs, ihr⟩

theorem findNode_updateNodes (p c : String) :
    ∀ nodes,
      findNode p (updateNodes p c nodes).1
        = (findNode p nodes).map (fun n => setFileContent n c) ∧
      (updateNodes p c nodes).2 = (findNode p nodes).isSome := by
  apply nodes_induction
  · simp [updateNodes, findNode]
  · intro n rest ihc ihr
    cases n with
    | mk nm pth k ct cs =>
      dsimp only [FileNode.children] at ihc
      rw [updateNodes]
      by_cases hp : pth = p
      · rw [if_pos hp]
        constructor
        · dsimp only
          rw [findNode, if_pos hp, findNode, if_pos hp]
          simp [setFileContent, FileNode.name, FileNode.path, FileNode.kind, FileNode.children]
        · dsimp only
          rw [findNode, if_pos hp]
          simp
      · rw [if_neg hp]
        cases hrc : updateNodes p c cs with
        | mk cs2 b =>
          obtain ⟨ihc1, ihc2⟩ := ihc
          rw [hrc] at ihc1 ihc2
          dsimp only at ihc1 ihc2
          cases b with
          | true =>
            dsimp only
            rw [findNode, if_neg hp]
            cases hf : findNode p cs with
            | none => rw [hf] at ihc2; simp at ihc2
            | some m =>
              rw [hf] at ihc1
              constructor
              · rw [findNode, if_neg hp, ihc1]
                simp [hf]
              · rw [findNode, if_neg hp, hf]
                simp
          | false =>
            dsimp only
            cases hf : findNode p cs with
            | some m => rw [hf] at ihc2; simp at ihc2
            | none =>
              obtain ⟨ihr1, ihr2⟩ := ihr
              constructor
              · rw [findNode, if_neg hp, hf, findNode, if_neg hp, hf]
                exact ihr1
              · rw [findNode, if_neg hp, hf]
                exact ihr2

/-- The mutable state of `generateProjectContext`'s `walk` closure:
`totalContextLength`, the structural listing and the contents overview. -/
structure CtxState where
  total : Nat
  struct : String
  overview : String

/-- `CONTEXT_LIMIT` from the source. -/
def contextLimit : Nat := 50000

/-- The per-file snippet: contents over 5000 characters are cut and marked
(`content.substring(0, 5000) + "... [truncated]"`). -/
def snippetOf (c : String) : String :=
  if c.length > 5000 then String.mk (c.data.take 5000) ++ "... [truncated]" else c

/-- `"  ".repeat(depth)`. -/
def indentOf (depth : Nat) : String := String.join (List.replicate depth "  ")

/-- The `walk` closure of `generateProjectContext`: every node adds its
indented structure line; a file node with truthy (non-empty) content whose
running total is still below the budget emits its snippet wrapped in path
markers and adds the snippet length to the total; children are walked before
the following siblings. -/
def walkCtx (depth : Nat) : List FileNode → CtxState → CtxState
  | [], st => st
  | FileNode.mk nm pth k ct cs :: rest, st =>
    let st1 : CtxState :=
      { st with
          struct := st.struct ++ indentOf depth ++
            (if k = NodeKind.directory then "📁 " else "📄 ") ++ nm ++ "\n" }
    let st2 : CtxState :=
      match ct with
      | some ctext =>
        if k = NodeKind.file ∧ ctext ≠ "" ∧ st1.total < contextLimit then
          { st1 with
              total := st1.total + (snippetOf ctext).length
              overview := st1.overview ++ "\n--- START FILE: " ++ pth ++ " ---\n"
                ++ snippetOf ctext ++ "\n--- END FILE: " ++ pth ++ " ---\n" }
        else st1
      | none => st1
    walkCtx depth rest (walkCtx (depth + 1) cs st2)
termination_by nodes => sizeOf nodes

/-- The initial serializer state of `generateProjectContext`. -/
def initCtxState : CtxState := ⟨0, "PROJECT STRUCTURE:\n", "\nFILE CONTENTS:\n"⟩

/-- `generateProjectContext` from the source: structural listing followed by
the bounded contents overview. -/
def generateProjectContext (nodes : List FileNode) : String :=
  let st := walkCtx 0 nodes initCtxState
  st.struct ++ st.overview

/-- The final `totalContextLength` of a serializer run: the total number of
characters of file-body content emitted (the sum of the emitted snippet
lengths, exactly as accumulated by the source). -/
def contextTotalLength (nodes : List FileNode) : Nat :=
  (walkCtx 0 nodes initCtxState).total

theorem snippetOf_length_le (c : String) : (snippetOf c).length ≤ 5015 := by
  unfold snippetOf
  by_cases h : c.length > 5000
  · rw [if_pos h]
    rw [String.length_append]
    have h1 : (String.mk (c.data.take 5000)).length ≤ 5000 := by
      show (c.data.take 5000).length ≤ 5000
      simp
    have h2 : ("... [truncated]" : String).length = 15 := by decide
    omega
  · rw [if_neg h]
    omega

theorem walkCtx_total_bound :
    ∀ (nodes : List FileNode) (depth : Nat) (st : CtxState),
      st.total ≤ 55014 → (walkCtx depth nodes st).total ≤ 55014 := by
  apply nodes_induction (fun nodes => ∀ (depth : Nat) (st : CtxState),
    st.total ≤ 55014 → (walkCtx depth nodes st).total ≤ 55014)
  · intro depth st h
    rw [walkCtx]
    exact h
  · intro n rest ihc ihr
    cases n with
    | mk nm pth k ct cs =>
      dsimp only [FileNode.children] at ihc
      intro depth st h
      rw [walkCtx.eq_def]
      dsimp only
      apply ihr
      apply ihc
      dsimp only
      cases ct with
      | none => exact h
      | some ctext =>
        dsimp only
        by_cases hc : k = NodeKind.file ∧ ctext ≠ "" ∧ st.total < contextLimit
        · rw [if_pos hc]
          have hs := snippetOf_length_le ctext
          have hlt := hc.2.2
          unfold contextLimit at hlt
          dsimp only
          omega
        · rw [if_neg hc]
          exact h

/-- Claim C2 (amended): the total file-body content emitted by the Context
Serializer never exceeds 55014 characters — the budget may be overshot by at
most one maximal snippet (4999 remaining + 5015), because emission stops only
once the running total has reached 50000. -/
theorem contextBudget_bound (nodes : List FileNode) : contextTotalLength nodes ≤ 55014 :=
  walkCtx_total_bound nodes 0 initCtxState (by simp [initCtxState])

/-- The budget accumulator of the walk in isolation (the emitted-snippet
length bookkeeping of `walkCtx`, which neither reads nor affects the string
parts of the state). -/
def walkTotal : List FileNode → Nat → Nat
  | [], t => t
  | FileNode.mk _ _ k ct cs :: rest, t =>
    let t2 : Nat :=
      match ct with
      | some ctext =>
        if k = NodeKind.file ∧ ctext ≠ "" ∧ t < contextLimit then
          t + (snippetOf ctext).length
        else t
      | none => t
    walkTotal rest (walkTotal cs t2)
termination_by nodes => sizeOf nodes

theorem walkCtx_total_eq_walkTotal :
    ∀ (nodes : List FileNode) (depth : Nat) (st : CtxState),
      (walkCtx depth nodes st).total = walkTotal nodes st.total := by
  apply nodes_induction (fun nodes => ∀ (depth : Nat) (st : CtxState),
    (walkCtx depth nodes st).total = walkTotal nodes st.total)
  · intro depth st
    rw [walkCtx, walkTotal]
  · intro n rest ihc ihr
    cases n with
    | mk nm pth k ct cs =>
      dsimp only [FileNode.children] at ihc
      intro depth st
      rw [walkCtx.eq_def, walkTotal.eq_def]
      dsimp only
      rw [ihr, ihc]
      cases ct with
      | none => rfl
      | some ctext =>
        dsimp only
        by_cases hc : k = NodeKind.file ∧ ctext ≠ "" ∧ st.total < contextLimit
        · rw [if_pos hc, if_pos hc]
        · rw [if_neg hc, if_neg hc]

/-- A 5001-character file content used to exercise the budget boundary. -/
def bigContent : String := String.mk (List.replicate 5001 'a')

/-- One file node carrying `bigContent`. -/
def bigFile : FileNode := FileNode.mk "f" "f" NodeKind.file (some bigContent) []

/-- Ten such files: nine snippets of 5015 characters total 45135 < 50000, so
the tenth is still emitted and the total reaches 50150. -/
def bigTree : List FileNode := List.replicate 10 bigFile

theorem bigContent_length : bigContent.length = 5001 := by
  show (List.replicate 5001 'a').length = 5001
  rw [List.length_replicate]

theorem bigContent_snippet_length : (snippetOf bigContent).length = 5015 := by
  unfold snippetOf
  rw [if_pos (by rw [bigContent_length]; omega)]
  rw [String.length_append]
  have ht : (String.mk (bigContent.data.take 5000)).length = 5000 := by
    show (bigContent.data.take 5000).length = 5000
    rw [List.length_take]
    have h5 : bigContent.data.length = 5001 := bigContent_length
    omega
  have hm : ("... [truncated]" : String).length = 15 := by decide
  omega

theorem contextTotalLength_spec (nodes : List FileNode) :
    contextTotalLength nodes = walkTotal nodes 0 :=
  walkCtx_total_eq_walkTotal nodes 0 initCtxState

/-- Counterexample to claim C2 as stated: on `bigTree` the serializer emits
50150 characters of file bodies, exceeding the 50000-character budget (the
budget is checked before, not after, adding a snippet). -/
theorem contextBudget_counterexample : 50000 < contextTotalLength bigTree := by
  have h2 : bigContent ≠ "" := by decide
  have hval : walkTotal bigTree 0 = 50150 := by
    simp [walkTotal, bigTree, bigFile, bigContent_snippet_length, h2, contextLimit]
  rw [contextTotalLength_spec bigTree, hval]
  omega

/-- The persisted `autoEditMode` setting (`'ask' | 'always'`). -/
inductive AutoEditMode where
  | ask
  | always
deriving DecidableEq, Repr

/-- The component state touched by the edit path: the file tree, the selected
file (the captured `selectedFile` object), the editor buffer and the pending
candidate (`pendingCode`). -/
structure EditorState where
  files : List FileNode
  selectedFile : Option FileNode
  editContent : String
  pendingCode : Option String

/-- `applyEdit` from the source: with no selected file it returns at once;
otherwise the candidate is applied as search/replace blocks when it contains
the SEARCH marker and as a full replacement otherwise, the node with the
selected file's path is updated, the buffer takes the new code and the
pending candidate is cleared. -/
def applyEdit (st : EditorState) (code : String) : EditorState :=
  match st.selectedFile with
  | none => st
  | some sf =>
    let newCode :=
      if strIncludes code searchMarker then
        applySearchReplace (sf.content.getD "") code
      else code
    { st with
        files := (updateNodes sf.path newCode st.files).1
        editContent := newCode
        pendingCode := none }

/-- The permission gate of `handleSendMessage` (lines 877–881): when a
candidate was extracted and a file is selected — the candidate must be a
truthy (non-empty) string — mode `always` applies it at once and mode `ask`
stores it as pending. The second component counts `applyEdit` invocations. -/
def handleExtractedCandidate (mode : AutoEditMode) (st : EditorState)
    (extracted : Option String) : EditorState × Nat :=
  match extracted with
  | none => (st, 0)
  | some c =>
    if c ≠ "" ∧ st.selectedFile.isSome then
      match mode with
      | .always => (applyEdit st c, 1)
      | .ask => ({ st with pendingCode := some c }, 0)
    else (st, 0)

/-- Claim C6 (amended): a newly extracted non-empty candidate with a file
selected is, in mode `always`, applied by exactly one Patch Applier
invocation with the pending candidate left `none` (the gate never enters
pending review); in mode `ask` it is stored as the pending candidate and the
Patch Applier is not invoked. -/
theorem permissionGate_modes (st : EditorState) (c : String)
    (hc : c ≠ "") (hsel : st.selectedFile.isSome = true) :
    (handleExtractedCandidate .always st (some c) = (applyEdit st c, 1) ∧
      (applyEdit st c).pendingCode = none) ∧
    handleExtractedCandidate .ask st (some c) = ({ st with pendingCode := some c }, 0) := by
  refine ⟨⟨?_, ?_⟩, ?_⟩
  · unfold handleExtractedCandidate
    dsimp only
    rw [if_pos ⟨hc, hsel⟩]
  · match hs : st.selectedFile with
    | some sf => unfold applyEdit; rw [hs]
    | none => rw [hs] at hsel; simp at hsel
  · unfold handleExtractedCandidate
    dsimp only
    rw [if_pos ⟨hc, hsel⟩]

/-- A small concrete file and editor state for the witnesses. -/
def demoFile : FileNode := FileNode.mk "a.txt" "a.txt" NodeKind.file (some "old") []

/-- Editor state holding `demoFile`, with it selected and nothing pending. -/
def demoState : EditorState := ⟨[demoFile], some demoFile, "old", none⟩

/-- Concrete instance of `permissionGate_modes` at `demoState` and candidate
`"new"`, with both hypotheses discharged by evaluation. -/
theorem permissionGate_modes_witness :
    (("new" : String) ≠ "" ∧ demoState.selectedFile.isSome = true) ∧
    ((handleExtractedCandidate .always demoState (some "new")
        = (applyEdit demoState "new", 1) ∧
      (applyEdit demoState "new").pendingCode = none) ∧
    handleExtractedCandidate .ask demoState (some "new")
        = ({ demoState with pendingCode := some "new" }, 0)) :=
  ⟨⟨by decide, by decide⟩, permissionGate_modes demoState "new" (by decide) (by decide)⟩

/-- Counterexample to claim C6 as stated: the reply below contains a fenced
block, so a candidate is extracted — but it trims to the empty string, and
with mode `always` and a file selected the Patch Applier is invoked zero
times, not once (the truthiness guard drops the candidate). -/
theorem permissionGate_counterexample :
    extractCodeFromMessage "```\n \n```" = some "" ∧
    handleExtractedCandidate .always demoState (some "") = (demoState, 0) := by
  constructor
  · decide
  · rfl

/-- Claim C8: a candidate containing none of the search/replace markers is a
full-file replacement: after `applyEdit` the node at the selected file's path
holds the candidate verbatim as its content (and such a node exists exactly
when one existed before). -/
theorem applyEdit_full_replacement (st : EditorState) (sf : FileNode) (code : String)
    (hsel : st.selectedFile = some sf)
    (h1 : strIncludes code searchMarker = false)
    (h2 : strIncludes code sepMarker = false)
    (h3 : strIncludes code replaceMarker = false) :
    findNode sf.path (applyEdit st code).files
      = (findNode sf.path st.files).map (fun n => setFileContent n code) := by
  unfold applyEdit
  rw [hsel]
  dsimp only
  rw [if_neg (by simp [h1])]
  exact (findNode_updateNodes sf.path code st.files).1

/-- Concrete instance of `applyEdit_full_replacement` at `demoState` and the
marker-free candidate `"new"`, hypotheses discharged by evaluation. -/
theorem applyEdit_full_replacement_witness :
    (demoState.selectedFile = some demoFile ∧
      strIncludes "new" searchMarker = false ∧
      strIncludes "new" sepMarker = false ∧
      strIncludes "new" replaceMarker = false) ∧
    findNode demoFile.path (applyEdit demoState "new").files
      = (findNode demoFile.path demoState.files).map (fun n => setFileContent n "new") :=
  ⟨⟨rfl, by decide, by decide, by decide⟩,
    applyEdit_full_replacement demoState demoFile "new" rfl (by decide) (by decide) (by decide)⟩

/-- Claim C9: the Patch Applier mutates only the node whose path equals the
selected file's path: `applyEdit` leaves every other node's name, path, kind
and content unchanged and preserves the tree's shape. -/
theorem applyEdit_frame (st : EditorState) (sf : FileNode) (code : String)
    (hsel : st.selectedFile = some sf) :
    framePreserved sf.path st.files (applyEdit st code).files := by
  unfold applyEdit
  rw [hsel]
  dsimp only
  exact frame_updateNodes sf.path _ st.files

/-- Concrete instance of `applyEdit_frame` at `demoState`, its hypothesis
discharged by evaluation. -/
theorem applyEdit_frame_witness :
    demoState.selectedFile = some demoFile ∧
    framePreserved demoFile.path demoState.files (applyEdit demoState "new").files :=
  ⟨rfl, applyEdit_frame demoState demoFile "new" rfl⟩
